import Mathlib

/-!
Verification of the `outref` crate (`src/lib.rs`): write-only references
(`Out<'a, T>` and `Out<'a, [T]>`) over possibly-uninitialized memory.

Shallow embedding: memory is a finite run of cells, each holding `none`
(uninitialized) or `some v` (initialized with `v`).  A scalar handle is the
address of one cell; a slice handle is a base address plus an element count,
exactly mirroring the thin/fat `NonNull` pointers stored in `Out`.  Raw
stores become `List.set`; `ptr::copy_nonoverlapping` becomes a cell-by-cell
copy reading from the pre-call snapshot (sound precisely because the crate
only ever calls it on non-overlapping regions); the length-mismatch panic of
`copy_from_slice` becomes `Except.error` carrying the memory as it stands
when the panic is raised.
-/

/-- A buffer: one cell per element slot, `none` meaning "uninitialized". -/
abbrev Mem (T : Type) : Type := List (Option T)

/-- Read the cell at address `p` (`none` when uninitialized or out of range). -/
def readCell {T : Type} (m : Mem T) (p : Nat) : Option T :=
  m.getD p none

/-- `Out<'a, T>` for sized `T`: the `NonNull<T>` thin pointer, as an address. -/
structure OutVal where
  ptr : Nat

/-- `Out<'a, [T]>`: the `NonNull<[T]>` fat pointer, as address plus count.
The `len` field is what `Out::len` (`NonNull::len(self.data)`) returns. -/
structure OutSlice where
  ptr : Nat
  len : Nat

/-- `Out::from_mut`: wraps an already-valid `&mut T` (an address). -/
def Out.from_mut (data : Nat) : OutVal :=
  ⟨data⟩

/-- `Out::from_uninit`: wraps `&mut MaybeUninit<T>`; same address, cast. -/
def Out.from_uninit (data : Nat) : OutVal :=
  ⟨data⟩

/-- `Out::overwrite`: `ptr.write(value)` (a raw store, running no destructor
on the previous content) and then `&mut *ptr`, returned here as the address. -/
def Out.overwrite {T : Type} (m : Mem T) (h : OutVal) (value : T) : Mem T × Nat :=
  (m.set h.ptr (some value), h.ptr)

/-- `Out::assume_init` (scalar): converts the handle into `&'a mut T`,
i.e. hands back the address it wraps. -/
def Out.assume_init (h : OutVal) : Nat :=
  h.ptr

/-- `Out::reborrow` at a scalar handle: `Self { data: self.data, .. }`. -/
def Out.reborrow (h : OutVal) : OutVal :=
  ⟨h.ptr⟩

/-- `Out::from_slice`: wraps `&mut [T]`, i.e. its (pointer, length) pair. -/
def Out.from_slice (p n : Nat) : OutSlice :=
  ⟨p, n⟩

/-- `Out::from_uninit_slice`: rebuilds the fat pointer from
`slice.as_mut_ptr().cast()` and `slice.len()` — same address, same count. -/
def Out.from_uninit_slice (p n : Nat) : OutSlice :=
  ⟨p, n⟩

/-- `Out::reborrow` at a slice handle: same fat pointer. -/
def Out.reborrowSlice (h : OutSlice) : OutSlice :=
  ⟨h.ptr, h.len⟩

/-- `Out::is_empty`: `self.len() == 0`. -/
def OutSlice.is_empty (h : OutSlice) : Bool :=
  h.len == 0

/-- The loop of `Out::fill_copied`: `for i in 0..len { ptr.add(i).write(val) }`,
with `k` the number of iterations still to run. -/
def fillLoop {T : Type} (ptr : Nat) (val : T) : Mem T → Nat → Nat → Mem T
  | m, _, 0 => m
  | m, i, k + 1 => fillLoop ptr val (m.set (ptr + i) (some val)) (i + 1) k

/-- `Out::fill_copied`: runs the write loop over all `len` elements, then
returns `slice::from_raw_parts_mut(ptr, len)` — the same buffer view. -/
def Out.fill_copied {T : Type} (m : Mem T) (h : OutSlice) (val : T) :
    Mem T × OutSlice :=
  (fillLoop h.ptr val m 0 h.len, ⟨h.ptr, h.len⟩)

/-- `ptr::copy_nonoverlapping(src.as_ptr(), dst, len)` where the source is a
Rust slice outside the destination buffer: element `i` of `src` is stored
into cell `dst + i`. -/
def copyFromList {T : Type} : Mem T → Nat → List T → Mem T
  | m, _, [] => m
  | m, dst, v :: rest => copyFromList (m.set dst (some v)) (dst + 1) rest

/-- `Out::copy_from_slice`: `assert_eq!(self.len(), src.len())` followed by a
nonoverlapping copy.  `Except.error` models the panic and carries the memory
as it is at that moment — the assert precedes every store. -/
def Out.copy_from_slice {T : Type} (m : Mem T) (h : OutSlice) (src : List T) :
    Except (Mem T) (Mem T) :=
  if h.len = src.length then Except.ok (copyFromList m h.ptr src)
  else Except.error m

/-- `ptr::copy_nonoverlapping(base.add(src), base.add(dst), count)` inside one
buffer: cell `dst + k` receives the pre-call content of cell `src + k`.
Reading from the snapshot is exactly memcpy semantics on the non-overlapping
regions this crate uses it on. -/
def copyCells {T : Type} (m : Mem T) (src dst : Nat) : Nat → Mem T
  | 0 => m
  | k + 1 => (copyCells m src dst k).set (dst + k) (readCell m (src + k))

/-- The doubling loop of `raw_fill_copied`:
`while n <= len / 2 { copy_nonoverlapping(dst, dst.add(n), n); n *= 2 }`,
returning the final memory and the final `n`.  The `0 < n` guard only serves
termination; the loop is entered with `n = 1` and `n` only doubles, so the
guard never differs from the source's `n <= len / 2`. -/
def doubleLoop {T : Type} (dst len : Nat) (m : Mem T) (n : Nat) : Mem T × Nat :=
  if h : 0 < n ∧ n ≤ len / 2 then
    doubleLoop dst len (copyCells m dst (dst + n) n) (2 * n)
  else
    (m, n)
termination_by len - n
decreasing_by omega

/-- `raw_fill_copied` (the doubling fill in the crate's tests module), with
the element byte size `sizeT` made an explicit parameter.  `size_of = 0`
and `len = 0` short-circuit; `size_of = 1` is `write_bytes(val_byte, len)`,
i.e. every one of the `len` cells receives `val`; otherwise: one direct
write, the doubling loop, then one final copy of the remaining tail. -/
def raw_fill_copied {T : Type} (sizeT : Nat) (m : Mem T) (dst len : Nat)
    (val : T) : Mem T :=
  if sizeT = 0 then m
  else if len = 0 then m
  else if sizeT = 1 then fillLoop dst val m 0 len
  else
    let r := doubleLoop dst len (m.set dst (some val)) 1
    let count := len - r.2
    if 0 < count then copyCells r.1 dst (dst + r.2) count else r.1

/-- Equality of buffer contents, element byte size made explicit: a buffer of
zero-sized elements occupies no bytes, so any two such buffers of the same
extent have identical contents; at nonzero size, contents equality is cell
equality. -/
def contentsEq {T : Type} (sizeT : Nat) (m1 m2 : Mem T) : Prop :=
  if sizeT = 0 then m1.length = m2.length else m1 = m2

/-- `impl AsOut<T> for T`: `Out::from_mut(self)`; the backing memory is
neither read nor written, so it is returned unchanged. -/
def asOut_value {T : Type} (m : Mem T) (p : Nat) : OutVal × Mem T :=
  (Out.from_mut p, m)

/-- `impl AsOut<T> for MaybeUninit<T>`: `Out::from_uninit(self)`. -/
def asOut_uninitCell {T : Type} (m : Mem T) (p : Nat) : OutVal × Mem T :=
  (Out.from_uninit p, m)

/-- `impl AsOut<[T]> for [T]`: `Out::from_slice(self)`. -/
def asOut_slice {T : Type} (m : Mem T) (p n : Nat) : OutSlice × Mem T :=
  (Out.from_slice p n, m)

/-- `impl AsOut<[T]> for [MaybeUninit<T>]`: `Out::from_uninit_slice(self)`. -/
def asOut_uninitSlice {T : Type} (m : Mem T) (p n : Nat) : OutSlice × Mem T :=
  (Out.from_uninit_slice p n, m)

/-! ### Pointwise lemmas about the memory primitives -/

lemma readCell_set {T : Type} (m : Mem T) (p : Nat) (x : Option T) (q : Nat) :
    readCell (m.set p x) q =
      if p = q ∧ p < m.length then x else readCell m q := by
  unfold readCell
  rw [List.getD_eq_getElem?_getD, List.getD_eq_getElem?_getD, List.getElem?_set]
  by_cases hpq : p = q
  · subst hpq
    by_cases hp : p < m.length
    · simp [hp]
    · have hnone : m[p]? = none := List.getElem?_eq_none (by omega)
      simp [hp, hnone]
  · simp [hpq]

lemma readCell_eq_getElem {T : Type} (m : Mem T) (q : Nat) (h : q < m.length) :
    readCell m q = m[q] :=
  List.getD_eq_getElem m none h

lemma fillLoop_length {T : Type} (ptr : Nat) (val : T) :
    ∀ (k i : Nat) (m : Mem T), (fillLoop ptr val m i k).length = m.length := by
  intro k
  induction k with
  | zero => intro i m; rfl
  | succ k ih => intro i m; rw [fillLoop, ih, List.length_set]

lemma fillLoop_read {T : Type} (ptr : Nat) (val : T) :
    ∀ (k i : Nat) (m : Mem T), ptr + i + k ≤ m.length → ∀ q,
      readCell (fillLoop ptr val m i k) q =
        if ptr + i ≤ q ∧ q < ptr + i + k then some val else readCell m q := by
  intro k
  induction k with
  | zero =>
    intro i m _ q
    rw [fillLoop]
    have : ¬(ptr + i ≤ q ∧ q < ptr + i + 0) := by omega
    rw [if_neg this]
  | succ k ih =>
    intro i m hv q
    rw [fillLoop]
    rw [ih (i + 1) (m.set (ptr + i) (some val)) (by rw [List.length_set]; omega) q]
    rw [readCell_set]
    have hlt : ptr + i < m.length := by omega
    by_cases h1 : ptr + (i + 1) ≤ q ∧ q < ptr + (i + 1) + k
    · rw [if_pos h1, if_pos (by omega)]
    · rw [if_neg h1]
      by_cases h2 : ptr + i = q
      · rw [if_pos ⟨h2, hlt⟩, if_pos (by omega)]
      · rw [if_neg (by tauto), if_neg (by omega)]

lemma copyFromList_length {T : Type} :
    ∀ (src : List T) (dst : Nat) (m : Mem T),
      (copyFromList m dst src).length = m.length := by
  intro src
  induction src with
  | nil => intro dst m; rfl
  | cons v rest ih => intro dst m; rw [copyFromList, ih, List.length_set]

lemma copyFromList_read_out {T : Type} :
    ∀ (src : List T) (dst : Nat) (m : Mem T) (q : Nat),
      (q < dst ∨ dst + src.length ≤ q) →
      readCell (copyFromList m dst src) q = readCell m q := by
  intro src
  induction src with
  | nil => intro dst m q _; rfl
  | cons v rest ih =>
    intro dst m q hq
    simp only [List.length_cons] at hq
    rw [copyFromList, ih (dst + 1) _ q (by omega)]
    rw [readCell_set, if_neg (by omega)]

lemma copyFromList_read_in {T : Type} :
    ∀ (src : List T) (dst : Nat) (m : Mem T), dst + src.length ≤ m.length →
      ∀ i (hi : i < src.length),
        readCell (copyFromList m dst src) (dst + i) = some (src.get ⟨i, hi⟩) := by
  intro src
  induction src with
  | nil => intro dst m _ i hi; exact absurd hi (by simp)
  | cons v rest ih =>
    intro dst m hv i hi
    simp only [List.length_cons] at hv
    rw [copyFromList]
    match i with
    | 0 =>
      simp only [Nat.add_zero]
      rw [copyFromList_read_out rest (dst + 1) _ dst (by omega)]
      rw [readCell_set, if_pos ⟨rfl, by omega⟩]
      rfl
    | j + 1 =>
      have hstep : dst + (j + 1) = (dst + 1) + j := by omega
      rw [hstep, ih (dst + 1) _ (by rw [List.length_set]; omega) j
        (by simpa using hi)]
      rfl

lemma copyCells_length {T : Type} (m : Mem T) (src dst : Nat) :
    ∀ count, (copyCells m src dst count).length = m.length := by
  intro count
  induction count with
  | zero => rfl
  | succ k ih => rw [copyCells, List.length_set, ih]

lemma copyCells_read_out {T : Type} (m : Mem T) (src dst : Nat) :
    ∀ count q, (q < dst ∨ dst + count ≤ q) →
      readCell (copyCells m src dst count) q = readCell m q := by
  intro count
  induction count with
  | zero => intro q _; rfl
  | succ k ih =>
    intro q hq
    rw [copyCells, readCell_set, if_neg (by omega), ih q (by omega)]

lemma copyCells_read_in {T : Type} (m : Mem T) (src dst : Nat) :
    ∀ count, dst + count ≤ m.length → ∀ k, k < count →
      readCell (copyCells m src dst count) (dst + k) = readCell m (src + k) := by
  intro count
  induction count with
  | zero => intro _ k hk; omega
  | succ c ih =>
    intro hv k hk
    rw [copyCells, readCell_set]
    by_cases hkc : k = c
    · subst hkc
      rw [if_pos ⟨rfl, by rw [copyCells_length]; omega⟩]
    · rw [if_neg (by omega), ih (by omega) k (by omega)]

/-! ### The doubling loop establishes the filled prefix -/

lemma doubleLoop_spec {T : Type} (dst len : Nat) (val : T) :
    ∀ (m : Mem T) (n : Nat), 0 < n → n ≤ len → dst + len ≤ m.length →
      (∀ i, i < n → readCell m (dst + i) = some val) →
      ((doubleLoop dst len m n).1.length = m.length ∧
        len / 2 < (doubleLoop dst len m n).2 ∧
        (doubleLoop dst len m n).2 ≤ len ∧
        (∀ i, i < (doubleLoop dst len m n).2 →
          readCell (doubleLoop dst len m n).1 (dst + i) = some val) ∧
        (∀ q, q < dst ∨ dst + len ≤ q →
          readCell (doubleLoop dst len m n).1 q = readCell m q)) := by
  intro m n
  induction m, n using doubleLoop.induct dst len with
  | case1 m n hcond ih =>
    intro hn hnlen hv hpre
    have h2n : 2 * n ≤ len := by omega
    rw [doubleLoop, dif_pos hcond]
    have hlen' : (copyCells m dst (dst + n) n).length = m.length :=
      copyCells_length m dst (dst + n) n
    have hpre' : ∀ i, i < 2 * n →
        readCell (copyCells m dst (dst + n) n) (dst + i) = some val := by
      intro i hi
      by_cases hin : i < n
      · rw [copyCells_read_out m dst (dst + n) n (dst + i) (by omega)]
        exact hpre i hin
      · have hrw : dst + i = (dst + n) + (i - n) := by omega
        rw [hrw, copyCells_read_in m dst (dst + n) n (by omega) (i - n) (by omega)]
        exact hpre (i - n) (by omega)
    obtain ⟨l1, l2, l3, l4, l5⟩ :=
      ih (by omega) h2n (by rw [hlen']; exact hv) hpre'
    refine ⟨by rw [l1, hlen'], l2, l3, l4, ?_⟩
    intro q hq
    rw [l5 q hq, copyCells_read_out m dst (dst + n) n q (by omega)]
  | case2 m n hcond =>
    intro hn hnlen _ hpre
    rw [doubleLoop, dif_neg hcond]
    exact ⟨rfl, by omega, hnlen, hpre, fun q _ => rfl⟩

/-- At nonzero element size, `raw_fill_copied` fills exactly the slice region
with `val`, preserves the length, and leaves every cell outside the region
untouched. -/
lemma raw_fill_copied_read {T : Type} (sizeT : Nat) (m : Mem T) (dst len : Nat)
    (val : T) (hs : sizeT ≠ 0) (hv : dst + len ≤ m.length) :
    (raw_fill_copied sizeT m dst len val).length = m.length ∧
    (∀ i, i < len → readCell (raw_fill_copied sizeT m dst len val) (dst + i) =
      some val) ∧
    (∀ q, q < dst ∨ dst + len ≤ q →
      readCell (raw_fill_copied sizeT m dst len val) q = readCell m q) := by
  rw [raw_fill_copied, if_neg hs]
  by_cases hlen : len = 0
  · rw [if_pos hlen]
    exact ⟨rfl, fun i hi => by omega, fun q _ => rfl⟩
  rw [if_neg hlen]
  by_cases hone : sizeT = 1
  · rw [if_pos hone]
    refine ⟨fillLoop_length dst val len 0 m, ?_, ?_⟩
    · intro i hi
      rw [fillLoop_read dst val len 0 m (by omega) (dst + i), if_pos (by omega)]
    · intro q hq
      rw [fillLoop_read dst val len 0 m (by omega) q, if_neg (by omega)]
  rw [if_neg hone]
  have hset : (m.set dst (some val)).length = m.length := List.length_set m dst _
  have hpre1 : ∀ i, i < 1 → readCell (m.set dst (some val)) (dst + i) = some val := by
    intro i hi
    have hi0 : i = 0 := by omega
    subst hi0
    rw [Nat.add_zero, readCell_set, if_pos ⟨rfl, by omega⟩]
  obtain ⟨l1, l2, l3, l4, l5⟩ :=
    doubleLoop_spec dst len val (m.set dst (some val)) 1 (by omega) (by omega)
      (by rw [hset]; exact hv) hpre1
  have hout : ∀ q, q < dst ∨ dst + len ≤ q →
      readCell (m.set dst (some val)) q = readCell m q := by
    intro q hq
    rw [readCell_set, if_neg (by omega)]
  by_cases hcount : 0 < len - (doubleLoop dst len (m.set dst (some val)) 1).2
  · rw [if_pos hcount]
    set r := doubleLoop dst len (m.set dst (some val)) 1 with hr
    have hvr : (dst + r.2) + (len - r.2) ≤ r.1.length := by
      rw [l1, hset]; omega
    refine ⟨?_, ?_, ?_⟩
    · rw [copyCells_length, l1, hset]
    · intro i hi
      by_cases hir : i < r.2
      · rw [copyCells_read_out r.1 dst (dst + r.2) (len - r.2) (dst + i) (by omega)]
        exact l4 i hir
      · have hrw : dst + i = (dst + r.2) + (i - r.2) := by omega
        rw [hrw, copyCells_read_in r.1 dst (dst + r.2) (len - r.2) hvr (i - r.2)
          (by omega)]
        exact l4 (i - r.2) (by omega)
    · intro q hq
      rw [copyCells_read_out r.1 dst (dst + r.2) (len - r.2) q (by omega)]
      rw [l5 q hq]
      exact hout q hq
  · rw [if_neg hcount]
    refine ⟨by rw [l1, hset], ?_, ?_⟩
    · intro i hi
      exact l4 i (by omega)
    · intro q hq
      rw [l5 q hq]
      exact hout q hq

/-- Two buffers with equal length and equal cell reads are equal. -/
lemma mem_eq_of_readCell_eq {T : Type} (m1 m2 : Mem T) (hlen : m1.length = m2.length)
    (h : ∀ q, readCell m1 q = readCell m2 q) : m1 = m2 := by
  refine List.ext_getElem hlen ?_
  intro i h1 h2
  rw [← readCell_eq_getElem m1 i h1, ← readCell_eq_getElem m2 i h2]
  exact h i

/-- At nonzero element size, the doubling fill and the direct write loop
produce the very same buffer. -/
lemma raw_fill_eq_fillLoop {T : Type} (sizeT : Nat) (m : Mem T) (dst len : Nat)
    (val : T) (hs : sizeT ≠ 0) (hv : dst + len ≤ m.length) :
    raw_fill_copied sizeT m dst len val = fillLoop dst val m 0 len := by
  obtain ⟨r1, r2, r3⟩ := raw_fill_copied_read sizeT m dst len val hs hv
  apply mem_eq_of_readCell_eq
  · rw [r1, fillLoop_length]
  · intro q
    rw [fillLoop_read dst val len 0 m (by omega) q]
    by_cases hin : dst + 0 ≤ q ∧ q < dst + 0 + len
    · rw [if_pos hin]
      have hq : q = dst + (q - dst) := by omega
      rw [hq]
      exact r2 (q - dst) (by omega)
    · rw [if_neg hin]
      exact r3 q (by omega)

/-! ### Claims -/

/-- C1: for every element type `T`, every slice handle of length `N` inside a
buffer and every value `v`, after `fill_copied(v)` all `N` elements of the
underlying buffer equal `v`, and the returned slice is the same buffer view:
same base pointer, same length `N` (the buffer extent is also preserved). -/
theorem fill_copied_correct {T : Type} (m : Mem T) (h : OutSlice) (v : T)
    (hv : h.ptr + h.len ≤ m.length) :
    (∀ i, i < h.len → readCell (Out.fill_copied m h v).1 (h.ptr + i) = some v) ∧
    (Out.fill_copied m h v).2.ptr = h.ptr ∧
    (Out.fill_copied m h v).2.len = h.len ∧
    (Out.fill_copied m h v).1.length = m.length := by
  refine ⟨?_, rfl, rfl, fillLoop_length h.ptr v h.len 0 m⟩
  intro i hi
  simp only [Out.fill_copied]
  rw [fillLoop_read h.ptr v h.len 0 m (by omega) (h.ptr + i), if_pos (by omega)]

theorem fill_copied_correct_witness :
    (∀ i, i < (3 : Nat) →
      readCell (Out.fill_copied ([none, none, none] : Mem Nat) ⟨0, 3⟩ 7).1 (0 + i) =
        some 7) ∧
    (Out.fill_copied ([none, none, none] : Mem Nat) ⟨0, 3⟩ (7 : Nat)).2.ptr = 0 ∧
    (Out.fill_copied ([none, none, none] : Mem Nat) ⟨0, 3⟩ (7 : Nat)).2.len = 3 ∧
    (Out.fill_copied ([none, none, none] : Mem Nat) ⟨0, 3⟩ (7 : Nat)).1.length =
      ([none, none, none] : Mem Nat).length :=
  fill_copied_correct [none, none, none] ⟨0, 3⟩ 7 (by decide)

/-- C2: when the handle's length equals the source's, `copy_from_slice`
succeeds and afterwards destination cell `i` holds `src[i]` for every `i`. -/
theorem copy_from_slice_correct {T : Type} (m : Mem T) (h : OutSlice)
    (src : List T) (hlen : h.len = src.length) (hv : h.ptr + h.len ≤ m.length) :
    ∃ m', Out.copy_from_slice m h src = Except.ok m' ∧
      ∀ i (hi : i < src.length),
        readCell m' (h.ptr + i) = some (src.get ⟨i, hi⟩) := by
  refine ⟨copyFromList m h.ptr src, ?_, ?_⟩
  · rw [Out.copy_from_slice, if_pos hlen]
  · intro i hi
    exact copyFromList_read_in src h.ptr m (by omega) i hi

theorem copy_from_slice_correct_witness :
    ∃ m', Out.copy_from_slice ([none, none] : Mem Nat) ⟨0, 2⟩ [4, 5] =
        Except.ok m' ∧
      ∀ i (hi : i < ([4, 5] : List Nat).length),
        readCell m' (0 + i) = some (([4, 5] : List Nat).get ⟨i, hi⟩) :=
  copy_from_slice_correct [none, none] ⟨0, 2⟩ [4, 5] (by decide) (by decide)

/-- C3: when the handle's length differs from the source's, `copy_from_slice`
panics (the assert fires before any store) and the destination memory is
exactly the memory the call started with — no partial copy happened. -/
theorem copy_from_slice_mismatch_panics {T : Type} (m : Mem T) (h : OutSlice)
    (src : List T) (hne : h.len ≠ src.length) :
    Out.copy_from_slice m h src = Except.error m := by
  rw [Out.copy_from_slice, if_neg hne]

theorem copy_from_slice_mismatch_panics_witness :
    Out.copy_from_slice ([none, some 9] : Mem Nat) ⟨0, 2⟩ [3] =
      Except.error [none, some 9] :=
  copy_from_slice_mismatch_panics [none, some 9] ⟨0, 2⟩ [3] (by decide)

/-- C4: writing `v` through a scalar handle (`overwrite`) and then asserting
initialization (`assume_init`) yields a reference whose pointed-to value is
`v`; `overwrite` returns the handle's own location, and its raw store does
not depend on the previous content of the cell (no destructor is consulted). -/
theorem overwrite_assume_init_round_trip {T : Type} (m : Mem T) (h : OutVal)
    (v : T) (hv : h.ptr < m.length) :
    readCell (Out.overwrite m h v).1 (Out.assume_init h) = some v ∧
    (Out.overwrite m h v).2 = h.ptr ∧
    ∀ c : Option T,
      (Out.overwrite (m.set h.ptr c) h v).1 = (Out.overwrite m h v).1 := by
  refine ⟨?_, rfl, ?_⟩
  · simp only [Out.overwrite, Out.assume_init]
    rw [readCell_set, if_pos ⟨rfl, hv⟩]
  · intro c
    simp only [Out.overwrite]
    exact List.set_set c (some v) m h.ptr

theorem overwrite_assume_init_round_trip_witness :
    readCell (Out.overwrite ([some 1, none] : Mem Nat) ⟨1⟩ 9).1
      (Out.assume_init ⟨1⟩) = some 9 ∧
    (Out.overwrite ([some 1, none] : Mem Nat) ⟨1⟩ 9).2 = 1 ∧
    ∀ c : Option Nat,
      (Out.overwrite (([some 1, none] : Mem Nat).set 1 c) ⟨1⟩ 9).1 =
        (Out.overwrite ([some 1, none] : Mem Nat) ⟨1⟩ 9).1 :=
  overwrite_assume_init_round_trip [some 1, none] ⟨1⟩ 9 (by decide)

/-- C5: the exponential-doubling fill `raw_fill_copied` produces, for every
element type, slice extent and value, exactly the buffer contents of the
direct element-by-element loop of the public `fill_copied` (at element byte
size zero both leave the zero-byte contents trivially equal). -/
theorem raw_fill_copied_equiv_fill_copied {T : Type} (sizeT : Nat) (m : Mem T)
    (h : OutSlice) (val : T) (hv : h.ptr + h.len ≤ m.length) :
    contentsEq sizeT (raw_fill_copied sizeT m h.ptr h.len val)
      (Out.fill_copied m h val).1 := by
  unfold contentsEq
  by_cases hs : sizeT = 0
  · rw [if_pos hs]
    subst hs
    rw [raw_fill_copied, if_pos rfl]
    simp only [Out.fill_copied]
    rw [fillLoop_length]
  · rw [if_neg hs]
    simp only [Out.fill_copied]
    exact raw_fill_eq_fillLoop sizeT m h.ptr h.len val hs hv

theorem raw_fill_copied_equiv_fill_copied_witness :
    contentsEq 4
      (raw_fill_copied 4 ([none, none, none, none, none] : Mem Nat) 1 3 2)
      (Out.fill_copied ([none, none, none, none, none] : Mem Nat) ⟨1, 3⟩ 2).1 :=
  raw_fill_copied_equiv_fill_copied 4 [none, none, none, none, none] ⟨1, 3⟩ 2
    (by decide)

/-- C6: on a zero-length slice handle, `fill_copied` and `copy_from_slice`
leave the buffer exactly as it was (no cell is read or written); at element
byte size zero, `raw_fill_copied` short-circuits to the identity and both
`fill_copied` and a (necessarily equal-length) `copy_from_slice` leave the
zero-byte buffer contents unchanged. -/
theorem zero_len_and_zero_sized_noop {T : Type} (m : Mem T) (p : Nat) (v : T)
    (h : OutSlice) (src : List T) (hlen : h.len = src.length) :
    (Out.fill_copied m ⟨p, 0⟩ v).1 = m ∧
    Out.copy_from_slice m ⟨p, 0⟩ ([] : List T) = Except.ok m ∧
    (∀ dst len, raw_fill_copied 0 m dst len v = m) ∧
    contentsEq 0 (Out.fill_copied m h v).1 m ∧
    Out.copy_from_slice m h src = Except.ok (copyFromList m h.ptr src) ∧
    contentsEq 0 (copyFromList m h.ptr src) m := by
  refine ⟨rfl, ?_, ?_, ?_, ?_, ?_⟩
  · rfl
  · intro dst len
    rw [raw_fill_copied, if_pos rfl]
  · unfold contentsEq
    rw [if_pos rfl]
    simp only [Out.fill_copied]
    rw [fillLoop_length]
  · rw [Out.copy_from_slice, if_pos hlen]
  · unfold contentsEq
    rw [if_pos rfl]
    exact copyFromList_length src h.ptr m

theorem zero_len_and_zero_sized_noop_witness :
    (Out.fill_copied ([some 1, none] : Mem Nat) ⟨0, 0⟩ 5).1 = [some 1, none] ∧
    Out.copy_from_slice ([some 1, none] : Mem Nat) ⟨0, 0⟩ ([] : List Nat) =
      Except.ok [some 1, none] ∧
    (∀ dst len,
      raw_fill_copied 0 ([some 1, none] : Mem Nat) dst len 5 = [some 1, none]) ∧
    contentsEq 0 (Out.fill_copied ([some 1, none] : Mem Nat) ⟨0, 2⟩ 5).1
      [some 1, none] ∧
    Out.copy_from_slice ([some 1, none] : Mem Nat) ⟨0, 2⟩ [8, 9] =
      Except.ok (copyFromList ([some 1, none] : Mem Nat) 0 [8, 9]) ∧
    contentsEq 0 (copyFromList ([some 1, none] : Mem Nat) 0 [8, 9])
      [some 1, none] :=
  zero_len_and_zero_sized_noop [some 1, none] 0 5 ⟨0, 2⟩ [8, 9] (by decide)

/-- C7: each of the four `AsOut` implementations returns exactly the handle
built by the corresponding direct constructor, and the backing memory is
returned untouched — the conversion neither reads nor writes it. -/
theorem as_out_refines_constructors {T : Type} (m : Mem T) (p n : Nat) :
    asOut_value m p = (Out.from_mut p, m) ∧
    asOut_uninitCell m p = (Out.from_uninit p, m) ∧
    asOut_slice m p n = (Out.from_slice p n, m) ∧
    asOut_uninitSlice m p n = (Out.from_uninit_slice p n, m) :=
  ⟨rfl, rfl, rfl, rfl⟩

/-- C8: `reborrow` hands back a handle with the identical pointer (and, for
slices, identical length), so a write through the reborrowed child is the
very same memory update as a write through the parent, and its effect is
visible at the parent's location afterwards. -/
theorem reborrow_same_memory {T : Type} (m : Mem T) (h : OutVal)
    (hs : OutSlice) (v : T) (hv : h.ptr < m.length) :
    Out.reborrow h = h ∧
    Out.reborrowSlice hs = hs ∧
    (Out.reborrowSlice hs).ptr = hs.ptr ∧
    (Out.reborrowSlice hs).len = hs.len ∧
    Out.overwrite m (Out.reborrow h) v = Out.overwrite m h v ∧
    readCell (Out.overwrite m (Out.reborrow h) v).1 h.ptr = some v := by
  refine ⟨rfl, rfl, rfl, rfl, rfl, ?_⟩
  simp only [Out.overwrite, Out.reborrow]
  rw [readCell_set, if_pos ⟨rfl, hv⟩]

theorem reborrow_same_memory_witness :
    Out.reborrow ⟨0⟩ = (⟨0⟩ : OutVal) ∧
    Out.reborrowSlice ⟨1, 2⟩ = (⟨1, 2⟩ : OutSlice) ∧
    (Out.reborrowSlice ⟨1, 2⟩).ptr = 1 ∧
    (Out.reborrowSlice ⟨1, 2⟩).len = 2 ∧
    Out.overwrite ([none] : Mem Nat) (Out.reborrow ⟨0⟩) 3 =
      Out.overwrite ([none] : Mem Nat) ⟨0⟩ 3 ∧
    readCell (Out.overwrite ([none] : Mem Nat) (Out.reborrow ⟨0⟩) 3).1 0 =
      some 3 :=
  reborrow_same_memory [none] ⟨0⟩ ⟨1, 2⟩ 3 (by decide)

/-- C9: `is_empty` returns `true` exactly when `len` returns `0`; both are
pure functions of the handle alone (they take no memory and return none). -/
theorem is_empty_iff_len_zero (h : OutSlice) :
    OutSlice.is_empty h = true ↔ h.len = 0 := by
  simp [OutSlice.is_empty]

/-- C10: a slice handle built from a slice of length `N` — initialized
(`from_slice` / `as_out` on `[T]`) or uninitialized (`from_uninit_slice` /
`as_out` on `[MaybeUninit<T>]`) — reports `len = N` and points at the
slice's first element. -/
theorem slice_handles_preserve_len {T : Type} (m : Mem T) (p n : Nat) :
    (Out.from_slice p n).len = n ∧ (Out.from_slice p n).ptr = p ∧
    (Out.from_uninit_slice p n).len = n ∧ (Out.from_uninit_slice p n).ptr = p ∧
    (asOut_slice m p n).1.len = n ∧ (asOut_slice m p n).1.ptr = p ∧
    (asOut_uninitSlice m p n).1.len = n ∧ (asOut_uninitSlice m p n).1.ptr = p :=
  ⟨rfl, rfl, rfl, rfl, rfl, rfl, rfl, rfl⟩
